import Mathlib

/-
Verification of the link-report cleaning pipeline implemented in
src/interlinking_streamlit.py (functions extract_main_domain and
process_data).  The pandas data frame is embedded as an ordered list of
column names together with rows given as association lists from column
names to cells.  Column drops only modify the column list; cell reads go
through the column lookup, mirroring pandas label-based access.  All
definitions are structurally recursive so that concrete runs evaluate
inside the kernel.
-/

namespace Interlinking

/-- One cell of the table: a string, an integer (for example a status
code), or a missing value (pandas NaN). -/
inductive Cell where
  | str (s : String)
  | int (n : Int)
  | null
deriving DecidableEq, Repr

/-- True exactly on string cells. -/
def Cell.isStr : Cell → Bool
  | .str _ => true
  | _ => false

/-- The string held by a string cell; none otherwise.  Used to model
python functions that raise on non-string input. -/
def cellStr? : Cell → Option String
  | .str s => some s
  | _ => none

/-- A row: association list from column name to cell.  Rows are never
rewritten by the pipeline; dropped columns merely disappear from the
column list of the frame.  A name absent from the row reads as null,
matching a missing value in a rectangular frame. -/
abbrev Row := List (String × Cell)

/-- Cell of a row under a column name (first binding wins, as in a
frame with unique column labels). -/
def rowGet : Row → String → Cell
  | [], _ => Cell.null
  | (k, v) :: t, c => if k = c then v else rowGet t c

/-- The data frame: ordered column names plus the list of rows. -/
structure DataFrame where
  cols : List String
  rows : List Row
deriving DecidableEq, Repr

/-- Boolean list membership via decidable equality (structural, so that
concrete runs reduce in the kernel). -/
def memB [DecidableEq α] (v : α) : List α → Bool
  | [] => false
  | a :: as => decide (a = v) || memB v as

/-- Number of occurrences of a value in a list. -/
def countOcc [DecidableEq α] (xs : List α) (v : α) : Nat :=
  (xs.filter (fun x => decide (x = v))).length

/-- Distinct values of a list in order of first occurrence (the
insertion order of a python dict or Counter built from the list). -/
def firstSeenAux [DecidableEq α] (seen : List α) : List α → List α
  | [] => []
  | a :: as =>
    if memB a seen then firstSeenAux seen as
    else a :: firstSeenAux (a :: seen) as

/-- Distinct values of a list in order of first occurrence. -/
def firstSeen [DecidableEq α] (xs : List α) : List α := firstSeenAux [] xs

/-- Counter(xs).most_common(1)[0][0]: iterate the first-seen distinct
values and keep the earliest value of maximal count (heapq.nlargest is
stable, so ties go to the value inserted first, which is the value seen
first in the list). -/
def mostCommon [DecidableEq α] (xs : List α) : Option α :=
  (firstSeen xs).foldl
    (fun b a =>
      match b with
      | none => some a
      | some c => if countOcc xs c < countOcc xs a then some a else some c)
    none

/-- Scheme characters accepted by urllib.parse after the leading
letter: ASCII letters, digits, plus, minus, dot. -/
def isSchemeChar (c : Char) : Bool :=
  c.isAlphanum || decide (c = '+') || decide (c = '-') || decide (c = '.')

/-- Model of the scheme splitting done by urllib.parse.urlsplit: if the
first colon is preceded by an ASCII letter followed by scheme
characters, everything through that colon is removed. -/
def stripScheme (cs : List Char) : List Char :=
  match cs.findIdx? (fun c => decide (c = ':')) with
  | some i =>
    if 0 < i ∧ (cs.take 1).all Char.isAlpha ∧ ((cs.take i).drop 1).all isSchemeChar
    then cs.drop (i + 1) else cs
  | none => cs

/-- Characters ending the netloc component of a URL. -/
def netlocEnd (c : Char) : Bool := decide (c = '/') || decide (c = '?') || decide (c = '#')

/-- Characters urllib.parse removes from the URL before parsing (the
tab, carriage-return and line-feed entries of its removal list). -/
def removeTabCrLf (cs : List Char) : List Char :=
  cs.filter (fun c => !(decide (c = '\t') || decide (c = '\r') || decide (c = '\n')))

/-- The netloc characters urlsplit isolates: after removal of the
tab, carriage-return and line-feed characters and of the scheme, the
netloc is present exactly when the remainder starts with two slashes,
and runs to the next slash, question mark or hash. -/
def netlocChars (url : String) : List Char :=
  match stripScheme (removeTabCrLf url.data) with
  | '/' :: '/' :: t => t.takeWhile (fun c => !netlocEnd c)
  | _ => []

/-- extract_main_domain from the source: urlparse(url).netloc. -/
def extract_main_domain (url : String) : String := ⟨netlocChars url⟩

/-- The strings of the Source column, or none when some Source cell is
not a string (urlparse raises on non-string input). -/
def sourceStrings : List Row → Option (List String)
  | [] => some []
  | r :: rs =>
    match cellStr? (rowGet r "Source"), sourceStrings rs with
    | some s, some l => some (s :: l)
    | _, _ => none

/-- Failure modes of process_data.  The first four surface as st.error
followed by returning (None, None); keyErrorDedup models the uncaught
pandas KeyError raised by drop_duplicates when a subset column is
gone. -/
inductive PError where
  | missingSource
  | typeErrorSource
  | emptyDomains
  | missingDestination
  | missingDestinationLate
  | keyErrorDedup
deriving DecidableEq, Repr

/-- Lines 14 to 27 of the source: require the Source column, apply
extract_main_domain to it, and take the most common domain. -/
def mainDomainStep (df : DataFrame) : Except PError String :=
  if memB "Source" df.cols then
    match sourceStrings df.rows with
    | none => .error .typeErrorSource
    | some srcs =>
      match mostCommon (srcs.map extract_main_domain) with
      | none => .error .emptyDomains
      | some d => .ok d
  else .error .missingSource

/-- Columns dropped unconditionally (step 3 of the spec). -/
def initialDropList : List String := ["Size (Bytes)", "Alt Text", "Status", "Type"]

/-- Step 3: drop the unconditional columns when present. -/
def dropInitialCols (cols : List String) : List String :=
  cols.filter (fun c => !memB c initialDropList)

/-- Position of a column label in the column list (pandas get_loc for a
unique index). -/
def colIdx (c : String) : List String → Nat
  | [] => 0
  | b :: t => if b = c then 0 else colIdx c t + 1

/-- The labels selected by df.loc[:, l:r].columns with both labels
present: the positional slice from the location of Follow through the
location of Link Path inclusive.  When Follow sits after Link Path the
python slice start exceeds its stop and the selection is empty. -/
def rangeDropCols (cols : List String) : List String :=
  if memB "Follow" cols && memB "Link Path" cols then
    (cols.drop (colIdx "Follow" cols)).take
      (colIdx "Link Path" cols + 1 - colIdx "Follow" cols)
  else []

/-- Step 4: drop the sliced labels (no-op when an endpoint is absent). -/
def dropRangeStep (cols : List String) : List String :=
  cols.filter (fun c => !memB c (rangeDropCols cols))

/-- Step 5: keep rows whose Link Position is the string Content, when
that column exists. -/
def contentFilter (cols : List String) (rows : List Row) : List Row :=
  if memB "Link Position" cols then
    rows.filter (fun r => decide (rowGet r "Link Position" = Cell.str "Content"))
  else rows

/-- Step 6: drop the metadata columns when present. -/
def dropFinalCols (cols : List String) : List String :=
  cols.filter (fun c => !memB c ["Link Origin", "Link Position"])

/-- Does the pattern match at the start of the text?  Model of python
regular-expression matching restricted to patterns made of literal
characters and the dot wildcard (which matches any character except a
newline); regexLiteralPattern below delimits the patterns on which
this is exactly re.search, and the pipeline theorems whose truth
depends on it carry that condition as a hypothesis. -/
def reMatchAt : List Char → List Char → Bool
  | [], _ => true
  | _ :: _, [] => false
  | c :: p, d :: s =>
    (if c = '.' then decide (d ≠ '\n') else decide (c = d)) && reMatchAt p s

/-- re.search over the text: try to match at every position. -/
def reSearchList (p : List Char) : List Char → Bool
  | [] => reMatchAt p []
  | d :: s => reMatchAt p (d :: s) || reSearchList p s

/-- Series.str.contains(pat) on one value, default regex mode. -/
def reSearch (pat s : String) : Bool := reSearchList pat.data s.data

/-- One cell under str.contains(main_domain, na=False): string cells
are regex-searched, missing and non-string cells count as False. -/
def destContains (md : String) (c : Cell) : Bool :=
  match c with
  | .str s => reSearch md s
  | _ => false

/-- Step 8: keep rows whose Status Code equals the integer 200 when the
column exists; otherwise every row continues. -/
def statusFilter (cols : List String) (rows : List Row) : List Row :=
  if memB "Status Code" cols then
    rows.filter (fun r => decide (rowGet r "Status Code" = Cell.int 200))
  else rows

/-- drop_duplicates(subset=[Source, Destination]): keep the first row
for each (Source, Destination) pair, in order. -/
def dedupByKey (seen : List (Cell × Cell)) : List Row → List Row
  | [] => []
  | r :: rs =>
    if memB (rowGet r "Source", rowGet r "Destination") seen then dedupByKey seen rs
    else r :: dedupByKey ((rowGet r "Source", rowGet r "Destination") :: seen) rs

/-- Step 10 entry point. -/
def dedupRows (rows : List Row) : List Row := dedupByKey [] rows

/-- The extension blacklist of step 11. -/
def unwantedExtensions : List String :=
  [".jpg", ".jpeg", ".png", ".gif", ".bmp", ".svg",
   ".mp4", ".avi", ".mov", ".wmv", ".flv",
   ".mp3", ".wav", ".ogg",
   ".js", ".css", ".pdf", ".doc", ".docx"]

/-- ASCII lower-casing of one character (str.lower on the ASCII inputs
this pipeline handles). -/
def lowChar (c : Char) : Char :=
  if 'A' ≤ c ∧ c ≤ 'Z' then Char.ofNat (c.toNat + 32) else c

/-- Structural prefix test on character lists. -/
def isPrefixList : List Char → List Char → Bool
  | [], _ => true
  | _ :: _, [] => false
  | a :: as, b :: bs => decide (a = b) && isPrefixList as bs

/-- Does the text end with the given suffix? -/
def endsWithList (s p : List Char) : Bool := isPrefixList p.reverse s.reverse

/-- str.lower().str.endswith(tuple(unwanted_extensions)) on one cell.
Rows reaching this filter always carry string destinations because the
step 7 filter only passes string cells. -/
def destUnwanted (c : Cell) : Bool :=
  match c with
  | .str s => unwantedExtensions.any (fun e => endsWithList (s.data.map lowChar) e.data)
  | _ => false

/-- Step 11: remove blacklisted destinations. -/
def extFilter (rows : List Row) : List Row :=
  rows.filter (fun r => !destUnwanted (rowGet r "Destination"))

/-- Anchor notna and not the empty string (step 12 row predicate). -/
def anchorPresent (c : Cell) : Bool :=
  match c with
  | .null => false
  | .str s => !decide (s = "")
  | .int _ => true

/-- Step 12: drop rows with empty anchors when the column exists. -/
def anchorPresenceFilter (cols : List String) (rows : List Row) : List Row :=
  if memB "Anchor" cols then
    rows.filter (fun r => anchorPresent (rowGet r "Anchor"))
  else rows

/-- The anchor cells counted by value_counts: missing values are left
out. -/
def anchorValues (rows : List Row) : List Cell :=
  (rows.map (fun r => rowGet r "Anchor")).filter (fun c => !decide (c = Cell.null))

/-- anchor_counts[anchor_counts > 5].index: anchor values occurring
strictly more than five times in the current row set. -/
def overusedAnchors (rows : List Row) : List Cell :=
  (firstSeen (anchorValues rows)).filter
    (fun v => decide (5 < countOcc (anchorValues rows) v))

/-- Step 13 body: drop every row whose anchor value is overused. -/
def anchorOveruseFilter (rows : List Row) : List Row :=
  rows.filter (fun r => !memB (rowGet r "Anchor") (overusedAnchors rows))

/-- Step 13 with its column guard. -/
def anchorOveruseStep (cols : List String) (rows : List Row) : List Row :=
  if memB "Anchor" cols then anchorOveruseFilter rows else rows

/-- Elementwise pandas inequality: comparisons against a missing value
yield True for the != operator. -/
def pandasNe (a b : Cell) : Bool :=
  decide (a = Cell.null) || decide (b = Cell.null) || decide (a ≠ b)

/-- Step 14: remove self links. -/
def selfLinkFilter (rows : List Row) : List Row :=
  rows.filter (fun r => pandasNe (rowGet r "Source") (rowGet r "Destination"))

/-- Destination value_counts of the final row set, one pair per
distinct non-missing value with its occurrence count.  The source
orders this frame by descending count with an unspecified tie order
(quicksort); no property verified here depends on the order, and the
model keeps first-seen order. -/
def valueCounts (xs : List Cell) : List (Cell × Nat) :=
  (firstSeen (xs.filter (fun c => !decide (c = Cell.null)))).map
    (fun v => (v, countOcc xs v))

/-- Total order on cells used for the final sort: strings compare by
code points as in python; missing values come last (na_position last).
Mixed-type columns would raise in python and never reach the sort in
the verified runs. -/
def cellRank : Cell → Nat
  | .str _ => 0
  | .int _ => 1
  | .null => 2

/-- Code-point lexicographic strict order on character lists. -/
def lexLt : List Char → List Char → Bool
  | [], [] => false
  | [], _ :: _ => true
  | _ :: _, [] => false
  | x :: xs, y :: ys => if x = y then lexLt xs ys else decide (x < y)

/-- Comparison on cells for sort_values(by=Source). -/
def cellLe (a b : Cell) : Bool :=
  match a, b with
  | .str s, .str t => !lexLt t.data s.data
  | .int m, .int n => decide (m ≤ n)
  | _, _ => decide (cellRank a ≤ cellRank b)

/-- Sort key comparison of two rows. -/
def rowLe (a b : Row) : Bool := cellLe (rowGet a "Source") (rowGet b "Source")

/-- Insertion into a sorted row list. -/
def insertRow (r : Row) : List Row → List Row
  | [] => [r]
  | x :: xs => if rowLe r x then r :: x :: xs else x :: insertRow r xs

/-- sort_values(by=Source): ascending sort on the Source cell.  The
source uses the pandas default quicksort, whose order among equal keys
is unspecified; this model fixes one ascending order (no verified
property depends on the tie order). -/
def sortRows : List Row → List Row
  | [] => []
  | r :: rs => insertRow r (sortRows rs)

/-- Columns after the Status Code drop of step 9. -/
def cols2Of (cols : List String) : List String := dropRangeStep (dropInitialCols cols)

/-- Columns after the metadata drop of step 6. -/
def cols3Of (cols : List String) : List String := dropFinalCols (cols2Of cols)

/-- Columns after the Status Code drop of step 9. -/
def cols4Of (cols : List String) : List String :=
  (cols3Of cols).filter (fun c => !decide (c = "Status Code"))

/-- Rows after the Link Position filter of step 5. -/
def rows1Of (df : DataFrame) : List Row := contentFilter (cols2Of df.cols) df.rows

/-- Rows after the main-domain destination filter of step 7. -/
def rows2Of (df : DataFrame) (md : String) : List Row :=
  (rows1Of df).filter (fun r => destContains md (rowGet r "Destination"))

/-- Rows after the status split of step 8 (the status_200 part). -/
def rows3Of (df : DataFrame) (md : String) : List Row :=
  statusFilter (cols3Of df.cols) (rows2Of df md)

/-- Rows after dedup (step 10) and the extension blacklist (step 11). -/
def rows5Of (df : DataFrame) (md : String) : List Row :=
  extFilter (dedupRows (rows3Of df md))

/-- Rows after the anchor filters (steps 12 and 13) and the self-link
filter (step 14). -/
def rows8Of (df : DataFrame) (md : String) : List Row :=
  selfLinkFilter (anchorOveruseStep (cols4Of df.cols)
    (anchorPresenceFilter (cols4Of df.cols) (rows5Of df md)))

/-- Columns of the cleaned output: the code appends a unique_urls
column copied from Destination and drops it again before returning, so
any column of that name disappears. -/
def finalCols (cols : List String) : List String :=
  (cols4Of cols).filter (fun c => !decide (c = "unique_urls"))

/-- process_data from the source: either a typed failure or the pair of
the cleaned frame (sorted by Source) and the destination count
table. -/
def process_data (df : DataFrame) :
    Except PError (DataFrame × List (Cell × Nat)) :=
  match mainDomainStep df with
  | .error e => .error e
  | .ok md =>
    if memB "Destination" (cols3Of df.cols) then
      if memB "Source" (cols4Of df.cols) && memB "Destination" (cols4Of df.cols) then
        if memB "Destination" (cols4Of df.cols) then
          .ok (⟨finalCols df.cols, sortRows (rows8Of df md)⟩,
            valueCounts ((rows8Of df md).map (fun r => rowGet r "Destination")))
        else .error .missingDestinationLate
      else .error .keyErrorDedup
    else .error .missingDestination


/- Basic lemmas about the list helpers. -/

theorem memB_iff [DecidableEq α] (v : α) (l : List α) : memB v l = true ↔ v ∈ l := by
  induction l with
  | nil => simp [memB]
  | cons a as ih =>
    simp only [memB, Bool.or_eq_true, decide_eq_true_eq, ih, List.mem_cons]
    constructor
    · rintro (h | h)
      · exact Or.inl h.symm
      · exact Or.inr h
    · rintro (h | h)
      · exact Or.inl h.symm
      · exact Or.inr h

theorem memB_eq_false_iff [DecidableEq α] (v : α) (l : List α) :
    memB v l = false ↔ v ∉ l := by
  rw [← memB_iff v l]
  cases memB v l <;> simp

theorem countOcc_nil [DecidableEq α] (v : α) : countOcc ([] : List α) v = 0 := rfl

theorem countOcc_cons [DecidableEq α] (a v : α) (xs : List α) :
    countOcc (a :: xs) v = (if a = v then 1 else 0) + countOcc xs v := by
  by_cases h : a = v <;> simp [countOcc, List.filter_cons, h, Nat.add_comm]

theorem countOcc_cons_ne [DecidableEq α] (a v : α) (xs : List α) (h : a ≠ v) :
    countOcc (a :: xs) v = countOcc xs v := by
  rw [countOcc_cons, if_neg h, Nat.zero_add]

theorem countOcc_pos_iff [DecidableEq α] (xs : List α) (v : α) :
    0 < countOcc xs v ↔ v ∈ xs := by
  induction xs with
  | nil => simp [countOcc]
  | cons a as ih =>
    rw [countOcc_cons, List.mem_cons]
    by_cases h : a = v
    · subst h
      rw [if_pos rfl]
      constructor
      · intro _; exact Or.inl rfl
      · intro _; omega
    · rw [if_neg h, Nat.zero_add, ih]
      constructor
      · exact Or.inr
      · rintro (hv | hv)
        · exact absurd hv.symm h
        · exact hv

theorem countOcc_filter_of [DecidableEq α] (p : α → Bool) (xs : List α) (v : α)
    (hp : p v = true) : countOcc (xs.filter p) v = countOcc xs v := by
  induction xs with
  | nil => rfl
  | cons a as ih =>
    by_cases h : a = v
    · subst h
      simp [List.filter_cons, hp, countOcc_cons, ih]
    · rw [List.filter_cons]
      by_cases hpa : p a = true
      · simp only [hpa, if_true]
        rw [countOcc_cons_ne _ _ _ h, countOcc_cons_ne _ _ _ h, ih]
      · simp only [hpa, Bool.false_eq_true, if_false]
        rw [ih, countOcc_cons_ne _ _ _ h]

theorem filter_length_partition (p : α → Bool) (l : List α) :
    (l.filter p).length + (l.filter (fun a => !p a)).length = l.length := by
  induction l with
  | nil => rfl
  | cons a as ih =>
    by_cases h : p a = true <;>
      simp [List.filter_cons, h, ← ih] <;> omega

theorem mem_firstSeenAux [DecidableEq α] (xs : List α) : ∀ (seen : List α) (a : α),
    a ∈ firstSeenAux seen xs ↔ a ∈ xs ∧ a ∉ seen := by
  induction xs with
  | nil => intro seen a; simp [firstSeenAux]
  | cons b bs ih =>
    intro seen a
    by_cases hb : memB b seen = true
    · rw [firstSeenAux, if_pos hb, ih]
      have hbseen := (memB_iff b seen).mp hb
      simp only [List.mem_cons]
      constructor
      · rintro ⟨h1, h2⟩; exact ⟨Or.inr h1, h2⟩
      · rintro ⟨h1 | h1, h2⟩
        · subst h1; exact absurd hbseen h2
        · exact ⟨h1, h2⟩
    · rw [firstSeenAux, if_neg hb, List.mem_cons, ih]
      have hbseen : b ∉ seen := (memB_eq_false_iff b seen).mp (by simpa using hb)
      simp only [List.mem_cons]
      constructor
      · rintro (h | ⟨h1, h2⟩)
        · subst h; exact ⟨Or.inl rfl, hbseen⟩
        · exact ⟨Or.inr h1, fun hs => h2 (Or.inr hs)⟩
      · rintro ⟨h1 | h1, h2⟩
        · exact Or.inl h1
        · by_cases hab : a = b
          · exact Or.inl hab
          · exact Or.inr ⟨h1, fun hs => Or.elim hs hab h2⟩

theorem mem_firstSeen [DecidableEq α] (xs : List α) (a : α) :
    a ∈ firstSeen xs ↔ a ∈ xs := by
  rw [firstSeen, mem_firstSeenAux]
  simp

theorem nodup_firstSeenAux [DecidableEq α] (xs : List α) : ∀ seen : List α,
    (firstSeenAux seen xs).Nodup := by
  induction xs with
  | nil => intro seen; simp [firstSeenAux]
  | cons a as ih =>
    intro seen
    by_cases ha : memB a seen = true
    · rw [firstSeenAux, if_pos ha]; exact ih seen
    · rw [firstSeenAux, if_neg ha]
      refine List.nodup_cons.mpr ⟨fun hmem => ?_, ih (a :: seen)⟩
      exact ((mem_firstSeenAux as (a :: seen) a).mp hmem).2 (List.mem_cons_self a seen)

theorem nodup_firstSeen [DecidableEq α] (xs : List α) : (firstSeen xs).Nodup :=
  nodup_firstSeenAux xs []

theorem map_sum_congrOn (f g : α → Nat) (l : List α) (h : ∀ a ∈ l, f a = g a) :
    (l.map f).sum = (l.map g).sum := by
  rw [List.map_congr_left h]

theorem sum_firstSeenAux_counts [DecidableEq α] (bs : List α) : ∀ seen : List α,
    ((firstSeenAux seen bs).map (fun v => countOcc bs v)).sum
      = (bs.filter (fun x => !memB x seen)).length := by
  induction bs with
  | nil => intro seen; simp [firstSeenAux]
  | cons b bs ih =>
    intro seen
    by_cases hb : memB b seen = true
    · rw [firstSeenAux, if_pos hb, List.filter_cons]
      simp only [hb, Bool.not_true, Bool.false_eq_true, if_false]
      rw [← ih seen]
      apply map_sum_congrOn
      intro v hv
      have hvs := (mem_firstSeenAux bs seen v).mp hv
      have hvb : b ≠ v := fun h => hvs.2 (h ▸ (memB_iff b seen).mp hb)
      exact countOcc_cons_ne b v bs hvb
    · rw [firstSeenAux, if_neg hb, List.filter_cons]
      simp only [hb, Bool.not_false, if_true, List.map_cons, List.sum_cons, List.length_cons]
      have htail : ((firstSeenAux (b :: seen) bs).map (fun v => countOcc (b :: bs) v)).sum
          = (bs.filter (fun x => !memB x (b :: seen))).length := by
        rw [← ih (b :: seen)]
        apply map_sum_congrOn
        intro v hv
        have hvs := (mem_firstSeenAux bs (b :: seen) v).mp hv
        have hvb : b ≠ v := fun h => hvs.2 (h ▸ List.mem_cons_self b seen)
        exact countOcc_cons_ne b v bs hvb
      rw [htail, countOcc_cons, if_pos rfl]
      have hsplit : (bs.filter (fun x => !memB x seen)).length
          = countOcc bs b + (bs.filter (fun x => !memB x (b :: seen))).length := by
        have h1 : bs.filter (fun x => decide (x = b))
            = bs.filter (fun x => !memB x seen && decide (x = b)) := by
          apply (List.filter_congr ?_).symm
          intro x _
          by_cases hxb : x = b
          · subst hxb; simp [hb]
          · simp [hxb]
        have h2 : bs.filter (fun x => !memB x (b :: seen))
            = bs.filter (fun x => !memB x seen && !decide (x = b)) := by
          apply List.filter_congr
          intro x _
          have : memB x (b :: seen) = (decide (b = x) || memB x seen) := rfl
          rw [this]
          by_cases hxb : x = b
          · subst hxb; simp
          · have : decide (b = x) = false := by
              simp only [decide_eq_false_iff_not]
              exact fun h => hxb h.symm
            simp [this, hxb]
        rw [countOcc, h1, h2]
        rw [← filter_length_partition (fun x => decide (x = b)) (bs.filter (fun x => !memB x seen))]
        rw [List.filter_filter, List.filter_filter]
        have e1 : List.filter (fun a => decide (a = b) && !memB a seen) bs
            = List.filter (fun x => !memB x seen && decide (x = b)) bs := by
          apply List.filter_congr
          intro x _
          exact Bool.and_comm _ _
        have e2 : List.filter (fun a => !decide (a = b) && !memB a seen) bs
            = List.filter (fun x => !memB x seen && !decide (x = b)) bs := by
          apply List.filter_congr
          intro x _
          exact Bool.and_comm _ _
        rw [e1, e2]
      omega

theorem sum_firstSeen_counts [DecidableEq α] (xs : List α) :
    ((firstSeen xs).map (fun v => countOcc xs v)).sum = xs.length := by
  rw [firstSeen, sum_firstSeenAux_counts]
  have : xs.filter (fun x => !memB x ([] : List α)) = xs := by
    apply List.filter_eq_self.mpr
    intro a _
    rfl
  rw [this]

theorem find?_filter_weaken (p q : α → Bool) (l : List α)
    (h : ∀ x, q x = false → p x = false) :
    (l.filter q).find? p = l.find? p := by
  induction l with
  | nil => rfl
  | cons a as ih =>
    rw [List.filter_cons]
    by_cases hq : q a = true
    · rw [if_pos hq, List.find?_cons, List.find?_cons]
      cases hpa : p a
      · exact ih
      · rfl
    · have hq' : q a = false := by cases hqa : q a; rfl; exact absurd hqa hq
      rw [hq', if_neg (by simp), List.find?_cons, h a hq']
      exact ih

theorem find?_firstSeenAux [DecidableEq α] (p : α → Bool) (bs : List α) :
    ∀ seen : List α,
      (firstSeenAux seen bs).find? p = (bs.filter (fun x => !memB x seen)).find? p := by
  induction bs with
  | nil => intro seen; rfl
  | cons b bs ih =>
    intro seen
    by_cases hb : memB b seen = true
    · rw [firstSeenAux, if_pos hb, List.filter_cons]
      simp only [hb, Bool.not_true, Bool.false_eq_true, if_false]
      exact ih seen
    · rw [firstSeenAux, if_neg hb, List.filter_cons]
      simp only [hb, Bool.not_false, if_true]
      rw [List.find?_cons, List.find?_cons]
      cases hpb : p b
      · rw [ih (b :: seen)]
        have h2 : bs.filter (fun x => !memB x (b :: seen))
            = (bs.filter (fun x => !memB x seen)).filter (fun x => !decide (x = b)) := by
          rw [List.filter_filter]
          apply List.filter_congr
          intro x _
          have : memB x (b :: seen) = (decide (b = x) || memB x seen) := rfl
          rw [this]
          by_cases hxb : x = b
          · subst hxb; simp
          · have : decide (b = x) = false := by
              simp only [decide_eq_false_iff_not]
              exact fun h => hxb h.symm
            simp [this, hxb, Bool.and_comm]
        rw [h2]
        apply find?_filter_weaken
        intro x hx
        have hxb : x = b := by
          by_contra hne
          simp [hne] at hx
        rw [hxb, hpb]
      · rfl

theorem find?_firstSeen [DecidableEq α] (p : α → Bool) (xs : List α) :
    (firstSeen xs).find? p = xs.find? p := by
  rw [firstSeen, find?_firstSeenAux]
  congr 1
  apply List.filter_eq_self.mpr
  intro a _
  rfl

/- Lemmas about the final sort: it permutes the rows, hence preserves
membership, length and per-value multiplicities. -/

theorem insertRow_perm (r : Row) (l : List Row) : (insertRow r l).Perm (r :: l) := by
  induction l with
  | nil => exact List.Perm.refl _
  | cons x xs ih =>
    rw [insertRow]
    by_cases h : rowLe r x = true
    · rw [if_pos h]
    · rw [if_neg h]
      exact (List.Perm.cons x ih).trans (List.Perm.swap r x xs)

theorem sortRows_perm (l : List Row) : (sortRows l).Perm l := by
  induction l with
  | nil => exact List.Perm.refl _
  | cons r rs ih =>
    exact (insertRow_perm r (sortRows rs)).trans (List.Perm.cons r ih)

theorem mem_sortRows (r : Row) (l : List Row) : r ∈ sortRows l ↔ r ∈ l :=
  (sortRows_perm l).mem_iff

theorem length_sortRows (l : List Row) : (sortRows l).length = l.length :=
  (sortRows_perm l).length_eq

theorem countOcc_map_sortRows [DecidableEq β] (f : Row → β) (l : List Row) (v : β) :
    countOcc ((sortRows l).map f) v = countOcc (l.map f) v := by
  unfold countOcc
  exact (((sortRows_perm l).map f).filter _).length_eq

/- Dedup and the filter chain only remove rows. -/

theorem mem_dedupByKey (rows : List Row) : ∀ (seen : List (Cell × Cell)) (r : Row),
    r ∈ dedupByKey seen rows → r ∈ rows := by
  induction rows with
  | nil => intro seen r h; exact absurd h (List.not_mem_nil r)
  | cons x xs ih =>
    intro seen r h
    rw [dedupByKey] at h
    by_cases hk : memB (rowGet x "Source", rowGet x "Destination") seen = true
    · rw [if_pos hk] at h
      exact List.mem_cons_of_mem x (ih _ r h)
    · rw [if_neg hk] at h
      rcases List.mem_cons.mp h with h | h
      · exact h ▸ List.mem_cons_self x xs
      · exact List.mem_cons_of_mem x (ih _ r h)

theorem mem_dedupRows (rows : List Row) (r : Row) (h : r ∈ dedupRows rows) : r ∈ rows :=
  mem_dedupByKey rows [] r h

theorem mem_statusFilter (cols : List String) (rows : List Row) (r : Row)
    (h : r ∈ statusFilter cols rows) : r ∈ rows := by
  unfold statusFilter at h
  split at h
  · exact (List.mem_filter.mp h).1
  · exact h

theorem mem_anchorPresenceFilter (cols : List String) (rows : List Row) (r : Row)
    (h : r ∈ anchorPresenceFilter cols rows) : r ∈ rows := by
  unfold anchorPresenceFilter at h
  split at h
  · exact (List.mem_filter.mp h).1
  · exact h

theorem mem_anchorOveruseStep (cols : List String) (rows : List Row) (r : Row)
    (h : r ∈ anchorOveruseStep cols rows) : r ∈ rows := by
  unfold anchorOveruseStep anchorOveruseFilter at h
  split at h
  · exact (List.mem_filter.mp h).1
  · exact h

/-- Every row surviving to step 14 already passed the step 7
destination filter. -/
theorem mem_rows8_rows2 (df : DataFrame) (md : String) (r : Row)
    (h : r ∈ rows8Of df md) : r ∈ rows2Of df md := by
  unfold rows8Of selfLinkFilter at h
  have h7 := (List.mem_filter.mp h).1
  have h6 := mem_anchorOveruseStep _ _ _ h7
  have h5 := mem_anchorPresenceFilter _ _ _ h6
  unfold rows5Of extFilter at h5
  have h4 := (List.mem_filter.mp h5).1
  have h3 := mem_dedupRows _ _ h4
  exact mem_statusFilter _ _ _ h3

/-- Rows passing the step 7 filter carry a string Destination that the
regex search accepts. -/
theorem rows2_dest (df : DataFrame) (md : String) (r : Row) (h : r ∈ rows2Of df md) :
    ∃ s : String, rowGet r "Destination" = Cell.str s ∧ reSearch md s = true := by
  unfold rows2Of at h
  have hc := (List.mem_filter.mp h).2
  unfold destContains at hc
  cases hd : rowGet r "Destination" with
  | str s =>
    refine ⟨s, rfl, ?_⟩
    rw [hd] at hc
    exact hc
  | int n => rw [hd] at hc; exact absurd hc (by simp)
  | null => rw [hd] at hc; exact absurd hc (by simp)

/- Characterization of the destination count table. -/

theorem valueCounts_keys_nodup (xs : List Cell) : ((valueCounts xs).map Prod.fst).Nodup := by
  unfold valueCounts
  rw [List.map_map]
  have h : (Prod.fst ∘ fun v => (v, countOcc xs v)) = id := rfl
  rw [h, List.map_id]
  exact nodup_firstSeen _

theorem mem_valueCounts (xs : List Cell) (v : Cell) (k : Nat) :
    (v, k) ∈ valueCounts xs ↔ (v ∈ xs ∧ v ≠ Cell.null ∧ k = countOcc xs v) := by
  unfold valueCounts
  rw [List.mem_map]
  constructor
  · rintro ⟨w, hw, heq⟩
    have h1 : w = v := congrArg Prod.fst heq
    subst h1
    have h2 : countOcc xs w = k := congrArg Prod.snd heq
    rw [mem_firstSeen, List.mem_filter] at hw
    refine ⟨hw.1, ?_, h2.symm⟩
    simpa using hw.2
  · rintro ⟨h1, h2, rfl⟩
    refine ⟨v, ?_, rfl⟩
    rw [mem_firstSeen, List.mem_filter]
    exact ⟨h1, by simpa using h2⟩

theorem valueCounts_sum (xs : List Cell) (h : ∀ c ∈ xs, c ≠ Cell.null) :
    ((valueCounts xs).map Prod.snd).sum = xs.length := by
  unfold valueCounts
  rw [List.map_map]
  have hf : xs.filter (fun c => !decide (c = Cell.null)) = xs := by
    apply List.filter_eq_self.mpr
    intro a ha
    simpa using h a ha
  rw [hf]
  have hsnd : (Prod.snd ∘ fun v => (v, countOcc xs v)) = fun v => countOcc xs v := rfl
  rw [hsnd]
  exact sum_firstSeen_counts xs

/- Inversion of a successful run. -/

theorem dest_mem_cols4 (cols : List String)
    (h : memB "Destination" (cols3Of cols) = true) :
    memB "Destination" (cols4Of cols) = true := by
  rw [memB_iff] at h ⊢
  unfold cols4Of
  rw [List.mem_filter]
  exact ⟨h, by decide⟩

theorem process_data_ok_iff (df : DataFrame) (cleaned : DataFrame)
    (counts : List (Cell × Nat)) :
    process_data df = .ok (cleaned, counts) ↔
      ∃ md, mainDomainStep df = .ok md
        ∧ memB "Destination" (cols3Of df.cols) = true
        ∧ memB "Source" (cols4Of df.cols) = true
        ∧ cleaned = ⟨finalCols df.cols, sortRows (rows8Of df md)⟩
        ∧ counts = valueCounts ((rows8Of df md).map (fun r => rowGet r "Destination")) := by
  constructor
  · intro h
    unfold process_data at h
    cases hmd : mainDomainStep df with
    | error e => rw [hmd] at h; cases h
    | ok md =>
      rw [hmd] at h
      cases h3 : memB "Destination" (cols3Of df.cols) with
      | false => rw [h3] at h; simp at h
      | true =>
        rw [h3] at h
        have h4d := dest_mem_cols4 df.cols h3
        cases h4s : memB "Source" (cols4Of df.cols) with
        | false => rw [h4s, h4d] at h; simp at h
        | true =>
          rw [h4s, h4d] at h
          simp only [if_true, Bool.and_self, decide_True, if_pos] at h
          refine ⟨md, rfl, rfl, rfl, ?_⟩
          have h' := h
          simp only [Except.ok.injEq, Prod.mk.injEq] at h'
          exact ⟨h'.1.symm, h'.2.symm⟩
  · rintro ⟨md, hmd, h3, h4, rfl, rfl⟩
    unfold process_data
    rw [hmd]
    have h4d := dest_mem_cols4 df.cols h3
    rw [h3, h4, h4d]
    simp

theorem process_data_ok_iff' (df : DataFrame) (out : DataFrame × List (Cell × Nat))
    (h : process_data df = .ok out) :
    ∃ md, mainDomainStep df = .ok md
      ∧ out.1 = ⟨finalCols df.cols, sortRows (rows8Of df md)⟩
      ∧ out.2 = valueCounts ((rows8Of df md).map (fun r => rowGet r "Destination")) := by
  obtain ⟨md, hmd, _, _, h1, h2⟩ := (process_data_ok_iff df out.1 out.2).mp (by
    cases out; exact h)
  exact ⟨md, hmd, h1, h2⟩

/-- Destinations of the final row set are never missing values. -/
theorem rows8_dest_nonnull (df : DataFrame) (md : String) (c : Cell)
    (hc : c ∈ (rows8Of df md).map (fun r => rowGet r "Destination")) :
    c ≠ Cell.null := by
  rw [List.mem_map] at hc
  obtain ⟨r, hr, rfl⟩ := hc
  obtain ⟨s, hs, _⟩ := rows2_dest df md r (mem_rows8_rows2 df md r hr)
  rw [hs]
  exact fun h => Cell.noConfusion h

/-- C3: for every successful run, the counts of UrlCountTable sum to
the number of rows of CleanedTable, and every Destination value of
CleanedTable appears exactly once in UrlCountTable (the url column has
no duplicates) with a count equal to the number of CleanedTable rows
carrying that Destination. -/
theorem C3_urlcounts_match_cleaned (df : DataFrame) (cleaned : DataFrame)
    (counts : List (Cell × Nat)) (h : process_data df = .ok (cleaned, counts)) :
    ((counts.map Prod.snd).sum = cleaned.rows.length)
    ∧ ((counts.map Prod.fst).Nodup)
    ∧ (∀ v ∈ cleaned.rows.map (fun r => rowGet r "Destination"),
        (v, countOcc (cleaned.rows.map (fun r => rowGet r "Destination")) v) ∈ counts) := by
  obtain ⟨md, hmd, _, _, hcl, hco⟩ := (process_data_ok_iff df cleaned counts).mp h
  subst hcl hco
  have hperm : ((sortRows (rows8Of df md)).map (fun r => rowGet r "Destination")).Perm
      ((rows8Of df md).map (fun r => rowGet r "Destination")) :=
    (sortRows_perm (rows8Of df md)).map _
  refine ⟨?_, valueCounts_keys_nodup _, ?_⟩
  · rw [valueCounts_sum _ (rows8_dest_nonnull df md)]
    simp only [List.length_map]
    exact (length_sortRows _).symm
  · intro v hv
    have hv8 : v ∈ (rows8Of df md).map (fun r => rowGet r "Destination") :=
      hperm.mem_iff.mp hv
    rw [mem_valueCounts]
    refine ⟨hv8, rows8_dest_nonnull df md v hv8, ?_⟩
    exact countOcc_map_sortRows (fun r => rowGet r "Destination") (rows8Of df md) v

/-- Scenario A of the spec, the two-row content table on a.com. -/
def dfScenA : DataFrame :=
  ⟨["Source", "Destination", "Status Code", "Link Position", "Anchor"],
   [[("Source", .str "http://a.com/p1"), ("Destination", .str "http://a.com/x"),
     ("Status Code", .int 200), ("Link Position", .str "Content"), ("Anchor", .str "click")],
    [("Source", .str "http://a.com/p2"), ("Destination", .str "http://a.com/x"),
     ("Status Code", .int 200), ("Link Position", .str "Content"), ("Anchor", .str "click2")]]⟩

/-- Cleaned output of scenario A. -/
def cleanedScenA : DataFrame :=
  ⟨["Source", "Destination", "Anchor"],
   [[("Source", .str "http://a.com/p1"), ("Destination", .str "http://a.com/x"),
     ("Status Code", .int 200), ("Link Position", .str "Content"), ("Anchor", .str "click")],
    [("Source", .str "http://a.com/p2"), ("Destination", .str "http://a.com/x"),
     ("Status Code", .int 200), ("Link Position", .str "Content"), ("Anchor", .str "click2")]]⟩

/-- Count table of scenario A. -/
def countsScenA : List (Cell × Nat) := [(Cell.str "http://a.com/x", 2)]

/-- Witness for C3 at scenario A. -/
theorem C3_urlcounts_match_cleaned_witness :
    ((countsScenA.map Prod.snd).sum = cleanedScenA.rows.length)
    ∧ ((countsScenA.map Prod.fst).Nodup)
    ∧ (∀ v ∈ cleanedScenA.rows.map (fun r => rowGet r "Destination"),
        (v, countOcc (cleanedScenA.rows.map (fun r => rowGet r "Destination")) v)
          ∈ countsScenA) :=
  C3_urlcounts_match_cleaned dfScenA cleanedScenA countsScenA rfl

/-- Literal, case-sensitive substring containment on character lists:
the relation the spec names when it says the Destination contains the
main domain as substring.  Stated from the spec for comparison with the
regex search the code performs. -/
def containsSub : List Char → List Char → Bool
  | [], pat => isPrefixList pat []
  | d :: s, pat => isPrefixList pat (d :: s) || containsSub s pat

/-- The empty pattern matches every string under re.search. -/
theorem reSearch_empty (s : String) : reSearch "" s = true := by
  rw [reSearch]
  cases s.data with
  | nil => rfl
  | cons d t => rw [reSearchList, reMatchAt, Bool.true_or]

/-- C1 (amended): in every successful run each CleanedTable row has a
string Destination accepted by the regex search for the detected main
domain (str.contains runs in regex mode, so the dots of the domain are
wildcards, not literal dots), and step 7 keeps exactly the rows of the
step 5 output whose Destination passes that regex search (missing and
non-string destinations are dropped). -/
theorem C1_dest_matches_regex (df : DataFrame) (cleaned : DataFrame)
    (counts : List (Cell × Nat)) (md : String)
    (hmd : mainDomainStep df = .ok md)
    (h : process_data df = .ok (cleaned, counts)) :
    (∀ r ∈ cleaned.rows, ∃ s, rowGet r "Destination" = Cell.str s ∧ reSearch md s = true)
    ∧ (∀ r, r ∈ rows2Of df md ↔
        (r ∈ rows1Of df ∧ destContains md (rowGet r "Destination") = true)) := by
  obtain ⟨md', hmd', _, _, hcl, _⟩ := (process_data_ok_iff df cleaned counts).mp h
  rw [hmd] at hmd'
  have hmize : md = md' := Except.ok.inj hmd'
  rw [← hmize] at hcl
  constructor
  · intro r hr
    rw [hcl] at hr
    have hr8 : r ∈ rows8Of df md := (mem_sortRows r _).mp hr
    exact rows2_dest df md r (mem_rows8_rows2 df md r hr8)
  · intro r
    unfold rows2Of
    exact List.mem_filter

/-- Witness for the amended C1 at scenario A. -/
theorem C1_dest_matches_regex_witness :
    (∀ r ∈ cleanedScenA.rows,
      ∃ s, rowGet r "Destination" = Cell.str s ∧ reSearch "a.com" s = true)
    ∧ (∀ r, r ∈ rows2Of dfScenA "a.com" ↔
        (r ∈ rows1Of dfScenA ∧ destContains "a.com" (rowGet r "Destination") = true)) :=
  C1_dest_matches_regex dfScenA cleanedScenA countsScenA "a.com" rfl rfl

/-- Input refuting C1 as stated: one row whose Destination reads
aXcom where the domain reads a.com. -/
def dfRegexC1 : DataFrame :=
  ⟨["Source", "Destination"],
   [[("Source", .str "http://a.com/p1"), ("Destination", .str "http://aXcom/z")]]⟩

/-- C1 counterexample: the run on dfRegexC1 succeeds with main domain
a.com and keeps the row with Destination http://aXcom/z, which does
not contain a.com as a literal substring: str.contains treats the
domain as a regular expression whose dot matched the X. -/
theorem C1_counterexample :
    mainDomainStep dfRegexC1 = .ok "a.com"
    ∧ process_data dfRegexC1 = .ok
        (⟨["Source", "Destination"],
          [[("Source", .str "http://a.com/p1"), ("Destination", .str "http://aXcom/z")]]⟩,
         [(Cell.str "http://aXcom/z", 1)])
    ∧ containsSub "http://aXcom/z".data "a.com".data = false := ⟨rfl, rfl, rfl⟩

/-- C2 (amended): in every successful run UrlCountTable has exactly
one row per distinct Destination value of the final filtered row set
(the rows of CleanedTable, which the step 16 sort merely permutes),
holding that value together with its occurrence count in that row
set.  The source computes the counts after dedup, the extension
blacklist, the anchor filters and the self-link filter, not on the
post-status-filter pre-dedup table. -/
theorem C2_urlcounts_of_final_rows (df : DataFrame) (cleaned : DataFrame)
    (counts : List (Cell × Nat)) (h : process_data df = .ok (cleaned, counts)) :
    ((counts.map Prod.fst).Nodup)
    ∧ (∀ v k, (v, k) ∈ counts ↔
        (v ∈ cleaned.rows.map (fun r => rowGet r "Destination")
         ∧ k = countOcc (cleaned.rows.map (fun r => rowGet r "Destination")) v)) := by
  obtain ⟨md, hmd, _, _, hcl, hco⟩ := (process_data_ok_iff df cleaned counts).mp h
  subst hcl hco
  have hperm : ((sortRows (rows8Of df md)).map (fun r => rowGet r "Destination")).Perm
      ((rows8Of df md).map (fun r => rowGet r "Destination")) :=
    (sortRows_perm (rows8Of df md)).map _
  refine ⟨valueCounts_keys_nodup _, ?_⟩
  intro v k
  rw [mem_valueCounts]
  constructor
  · rintro ⟨h1, _h2, rfl⟩
    exact ⟨hperm.mem_iff.mpr h1,
      (countOcc_map_sortRows (fun r => rowGet r "Destination") (rows8Of df md) v).symm⟩
  · rintro ⟨h1, rfl⟩
    have h8 : v ∈ (rows8Of df md).map (fun r => rowGet r "Destination") :=
      hperm.mem_iff.mp h1
    exact ⟨h8, rows8_dest_nonnull df md v h8,
      countOcc_map_sortRows (fun r => rowGet r "Destination") (rows8Of df md) v⟩

/-- Witness for the amended C2 at scenario A. -/
theorem C2_urlcounts_of_final_rows_witness :
    ((countsScenA.map Prod.fst).Nodup)
    ∧ (∀ v k, (v, k) ∈ countsScenA ↔
        (v ∈ cleanedScenA.rows.map (fun r => rowGet r "Destination")
         ∧ k = countOcc (cleanedScenA.rows.map (fun r => rowGet r "Destination")) v)) :=
  C2_urlcounts_of_final_rows dfScenA cleanedScenA countsScenA rfl

/-- Input refuting C2 as stated: the same (Source, Destination) pair
twice. -/
def dfDupC2 : DataFrame :=
  ⟨["Source", "Destination"],
   [[("Source", .str "http://a.com/p"), ("Destination", .str "http://a.com/x")],
    [("Source", .str "http://a.com/p"), ("Destination", .str "http://a.com/x")]]⟩

/-- C2 counterexample: the post-status-filter pre-dedup row set of the
run on dfDupC2 carries the destination twice, so the claim demands the
pair (url, 2); the code deduplicates first and the successful run
returns count 1 for that url. -/
theorem C2_counterexample :
    mainDomainStep dfDupC2 = .ok "a.com"
    ∧ valueCounts ((rows3Of dfDupC2 "a.com").map (fun r => rowGet r "Destination"))
        = [(Cell.str "http://a.com/x", 2)]
    ∧ process_data dfDupC2 = .ok
        (⟨["Source", "Destination"],
          [[("Source", .str "http://a.com/p"), ("Destination", .str "http://a.com/x")]]⟩,
         [(Cell.str "http://a.com/x", 1)]) := ⟨rfl, rfl, rfl⟩

/-- C10 (amended): when the detected main domain is the empty string,
the step 7 filter keeps exactly the rows whose Destination is a string
cell, dropping only missing or non-string destinations: the empty
pattern matches every string under re.search. -/
theorem C10_empty_domain_keeps_strings (df : DataFrame)
    (_hmd : mainDomainStep df = .ok "") :
    rows2Of df "" = (rows1Of df).filter (fun r => (rowGet r "Destination").isStr) := by
  unfold rows2Of
  apply List.filter_congr
  intro r _
  cases hd : rowGet r "Destination" with
  | str s => simp [destContains, reSearch_empty, Cell.isStr]
  | int n => rfl
  | null => rfl

/-- Input whose sources carry no scheme or netloc at all. -/
def dfRelC10 : DataFrame :=
  ⟨["Source", "Destination"],
   [[("Source", .str "/rel"), ("Destination", .str "/x")],
    [("Source", .str "/rel2"), ("Destination", Cell.null)]]⟩

/-- Witness for the amended C10: all sources are scheme-less, the
detected domain is empty, and the filter keeps exactly the rows with
string destinations. -/
theorem C10_empty_domain_keeps_strings_witness :
    rows2Of dfRelC10 "" = (rows1Of dfRelC10).filter (fun r => (rowGet r "Destination").isStr) :=
  C10_empty_domain_keeps_strings dfRelC10 rfl

/-- Input refuting C10 as stated: the most frequent Source value is
scheme-less (empty netloc) but domains of the other sources are more
frequent in total. -/
def dfMixC10 : DataFrame :=
  ⟨["Source", "Destination"],
   [[("Source", .str "/rel"), ("Destination", .str "http://a.com/1")],
    [("Source", .str "/rel"), ("Destination", .str "http://a.com/2")],
    [("Source", .str "http://a.com/1"), ("Destination", .str "http://a.com/3")],
    [("Source", .str "http://a.com/2"), ("Destination", .str "http://b.org/x")],
    [("Source", .str "http://a.com/3"), ("Destination", .str "http://a.com/4")]]⟩

/-- The row of dfMixC10 whose non-missing destination gets dropped. -/
def rowBorg : Row :=
  [("Source", .str "http://a.com/2"), ("Destination", .str "http://b.org/x")]

/-- C10 counterexample: in dfMixC10 the most frequent Source value is
/rel, whose netloc is empty, yet the detected main domain is a.com
(domains are counted, not source values), and the step 7 filter drops
the row with the non-missing destination http://b.org/x. -/
theorem C10_counterexample :
    mostCommon (dfMixC10.rows.map (fun r => rowGet r "Source")) = some (Cell.str "/rel")
    ∧ extract_main_domain "/rel" = ""
    ∧ mainDomainStep dfMixC10 = .ok "a.com"
    ∧ rowGet rowBorg "Destination" = Cell.str "http://b.org/x"
    ∧ memB rowBorg dfMixC10.rows = true
    ∧ memB rowBorg (rows2Of dfMixC10 "a.com") = false := ⟨rfl, rfl, rfl, rfl, rfl, rfl⟩

/- Lemmas for the anchor overuse filter. -/

theorem countOcc_anchorValues (rows : List Row) (v : Cell) (hv : v ≠ Cell.null) :
    countOcc (anchorValues rows) v = countOcc (rows.map (fun x => rowGet x "Anchor")) v := by
  unfold anchorValues
  exact countOcc_filter_of _ _ _ (by simpa using hv)

theorem mem_overusedAnchors (rows : List Row) (v : Cell) :
    v ∈ overusedAnchors rows ↔
      (v ∈ anchorValues rows ∧ 5 < countOcc (anchorValues rows) v) := by
  unfold overusedAnchors
  rw [List.mem_filter, mem_firstSeen]
  simp

/-- C8: when the Anchor column is present at step 13, every row whose
anchor value occurs strictly more than five times in the row set
reaching the step is dropped, and every row whose anchor value occurs
at most five times (in particular exactly five times) is kept. -/
theorem C8_anchor_overuse (cols : List String) (rows : List Row) (r : Row)
    (hA : memB "Anchor" cols = true) (hnn : rowGet r "Anchor" ≠ Cell.null) :
    (5 < countOcc (rows.map (fun x => rowGet x "Anchor")) (rowGet r "Anchor") →
      r ∉ anchorOveruseStep cols rows)
    ∧ (r ∈ rows → countOcc (rows.map (fun x => rowGet x "Anchor")) (rowGet r "Anchor") ≤ 5 →
      r ∈ anchorOveruseStep cols rows) := by
  have hstep : anchorOveruseStep cols rows = anchorOveruseFilter rows := by
    unfold anchorOveruseStep
    rw [if_pos hA]
  rw [hstep]
  unfold anchorOveruseFilter
  constructor
  · intro h5 hmem
    have hpred := (List.mem_filter.mp hmem).2
    rw [Bool.not_eq_eq_eq_not, Bool.not_true, memB_eq_false_iff] at hpred
    apply hpred
    rw [mem_overusedAnchors]
    have hmemv : rowGet r "Anchor" ∈ rows.map (fun x => rowGet x "Anchor") := by
      rw [← countOcc_pos_iff]
      omega
    have hav : rowGet r "Anchor" ∈ anchorValues rows := by
      unfold anchorValues
      rw [List.mem_filter]
      exact ⟨hmemv, by simpa using hnn⟩
    exact ⟨hav, by rw [countOcc_anchorValues rows _ hnn]; exact h5⟩
  · intro hr h5
    rw [List.mem_filter]
    refine ⟨hr, ?_⟩
    rw [Bool.not_eq_eq_eq_not, Bool.not_true, memB_eq_false_iff]
    intro hov
    rw [mem_overusedAnchors, countOcc_anchorValues rows _ hnn] at hov
    omega

/-- Witness for C8: the anchor used is present six times, and the row
is dropped; a five-of-a-kind anchor row is kept. -/
theorem C8_anchor_overuse_witness :
    (5 < countOcc (([[("Anchor", Cell.str "x")], [("Anchor", Cell.str "x")],
        [("Anchor", Cell.str "x")], [("Anchor", Cell.str "x")],
        [("Anchor", Cell.str "x")], [("Anchor", Cell.str "x")]] : List Row).map
          (fun x => rowGet x "Anchor")) (rowGet [("Anchor", Cell.str "x")] "Anchor") →
      [("Anchor", Cell.str "x")] ∉ anchorOveruseStep ["Anchor"]
        [[("Anchor", Cell.str "x")], [("Anchor", Cell.str "x")],
         [("Anchor", Cell.str "x")], [("Anchor", Cell.str "x")],
         [("Anchor", Cell.str "x")], [("Anchor", Cell.str "x")]])
    ∧ ([("Anchor", Cell.str "x")] ∈ ([[("Anchor", Cell.str "x")], [("Anchor", Cell.str "x")],
        [("Anchor", Cell.str "x")], [("Anchor", Cell.str "x")],
        [("Anchor", Cell.str "x")], [("Anchor", Cell.str "x")]] : List Row) →
      countOcc (([[("Anchor", Cell.str "x")], [("Anchor", Cell.str "x")],
        [("Anchor", Cell.str "x")], [("Anchor", Cell.str "x")],
        [("Anchor", Cell.str "x")], [("Anchor", Cell.str "x")]] : List Row).map
          (fun x => rowGet x "Anchor")) (rowGet [("Anchor", Cell.str "x")] "Anchor") ≤ 5 →
      [("Anchor", Cell.str "x")] ∈ anchorOveruseStep ["Anchor"]
        [[("Anchor", Cell.str "x")], [("Anchor", Cell.str "x")],
         [("Anchor", Cell.str "x")], [("Anchor", Cell.str "x")],
         [("Anchor", Cell.str "x")], [("Anchor", Cell.str "x")]]) :=
  C8_anchor_overuse ["Anchor"]
    [[("Anchor", Cell.str "x")], [("Anchor", Cell.str "x")],
     [("Anchor", Cell.str "x")], [("Anchor", Cell.str "x")],
     [("Anchor", Cell.str "x")], [("Anchor", Cell.str "x")]]
    [("Anchor", Cell.str "x")] rfl (by decide)

/- Lemmas about the main-domain step succeeding. -/

theorem sourceStrings_length (rows : List Row) : ∀ l : List String,
    sourceStrings rows = some l → l.length = rows.length := by
  induction rows with
  | nil => intro l h; cases h; rfl
  | cons r rs ih =>
    intro l h
    rw [sourceStrings] at h
    cases hc : cellStr? (rowGet r "Source") with
    | none => rw [hc] at h; cases h
    | some s =>
      rw [hc] at h
      cases hs : sourceStrings rs with
      | none => rw [hs] at h; cases h
      | some t =>
        rw [hs] at h
        cases h
        simp [ih t hs]

theorem foldl_pick_some [DecidableEq α] (xs : List α) (t : List α) : ∀ c : α,
    ∃ d, t.foldl
      (fun b a =>
        match b with
        | none => some a
        | some c' => if countOcc xs c' < countOcc xs a then some a else some c')
      (some c) = some d := by
  induction t with
  | nil => intro c; exact ⟨c, rfl⟩
  | cons a t ih =>
    intro c
    rw [List.foldl_cons]
    show ∃ d, t.foldl _ (if countOcc xs c < countOcc xs a then some a else some c) = some d
    by_cases hlt : countOcc xs c < countOcc xs a
    · rw [if_pos hlt]; exact ih a
    · rw [if_neg hlt]; exact ih c

theorem mostCommon_isSome [DecidableEq α] (xs : List α) (h : xs ≠ []) :
    ∃ d, mostCommon xs = some d := by
  unfold mostCommon
  cases hf : firstSeen xs with
  | nil =>
    exfalso
    cases xs with
    | nil => exact h rfl
    | cons a as =>
      have : a ∈ firstSeen (a :: as) := (mem_firstSeen _ a).mpr (List.mem_cons_self a as)
      rw [hf] at this
      exact absurd this (List.not_mem_nil a)
  | cons c t =>
    rw [List.foldl_cons]
    exact foldl_pick_some xs t c

theorem mainDomainStep_ok (df : DataFrame)
    (hsrc : memB "Source" df.cols = true)
    (hrows : df.rows ≠ [])
    (hstr : ∃ srcs, sourceStrings df.rows = some srcs) :
    ∃ md, mainDomainStep df = .ok md := by
  obtain ⟨srcs, hs⟩ := hstr
  have hlen : srcs.length = df.rows.length := sourceStrings_length df.rows srcs hs
  have hne : srcs.map extract_main_domain ≠ [] := by
    intro hempty
    have := congrArg List.length hempty
    rw [List.length_map, hlen] at this
    exact hrows (List.length_eq_zero.mp this)
  obtain ⟨d, hd⟩ := mostCommon_isSome _ hne
  refine ⟨d, ?_⟩
  unfold mainDomainStep
  rw [if_pos hsrc, hs]
  show (match mostCommon (srcs.map extract_main_domain) with
        | none => Except.error PError.emptyDomains
        | some d => Except.ok d) = Except.ok d
  rw [hd]

/-- C9: an input can contain a Destination column and still fail with
the missing-Destination error producing no output: when Follow and
Link Path are present after the unconditional drops and Destination
lies in the positional range the code slices between them, step 4
removes Destination and the step 7 check reports the column missing. -/
theorem C9_range_drop_kills_destination (df : DataFrame)
    (hrows : df.rows ≠ [])
    (hsrc : memB "Source" df.cols = true)
    (hstr : ∃ srcs, sourceStrings df.rows = some srcs)
    (hdest : "Destination" ∈ rangeDropCols (dropInitialCols df.cols)) :
    "Destination" ∈ df.cols ∧ process_data df = .error .missingDestination := by
  have hmem0 : "Destination" ∈ dropInitialCols df.cols := by
    unfold rangeDropCols at hdest
    by_cases hg : (memB "Follow" (dropInitialCols df.cols)
        && memB "Link Path" (dropInitialCols df.cols)) = true
    · rw [if_pos hg] at hdest
      exact List.drop_subset _ _ (List.take_subset _ _ hdest)
    · rw [if_neg hg] at hdest
      exact absurd hdest (List.not_mem_nil _)
  constructor
  · exact List.mem_of_mem_filter hmem0
  · have hnotin2 : "Destination" ∉ cols2Of df.cols := by
      unfold cols2Of dropRangeStep
      intro hmem
      have hpred := (List.mem_filter.mp hmem).2
      rw [Bool.not_eq_eq_eq_not, Bool.not_true, memB_eq_false_iff] at hpred
      exact hpred hdest
    have hnotin3 : memB "Destination" (cols3Of df.cols) = false := by
      rw [memB_eq_false_iff]
      unfold cols3Of dropFinalCols
      intro hmem
      exact hnotin2 (List.mem_filter.mp hmem).1
    obtain ⟨md, hmd⟩ := mainDomainStep_ok df hsrc hrows hstr
    unfold process_data
    rw [hmd, hnotin3]
    simp

/-- Input for the C9 witness: Destination sits between Follow and Link
Path. -/
def dfRangeC9 : DataFrame :=
  ⟨["Source", "Follow", "Destination", "Link Path"],
   [[("Source", .str "http://a.com/p"), ("Follow", .str "t"),
     ("Destination", .str "http://a.com/q"), ("Link Path", .str "lp")]]⟩

/-- Witness for C9: the concrete frame has a Destination column and
the run aborts reporting it missing. -/
theorem C9_range_drop_kills_destination_witness :
    "Destination" ∈ dfRangeC9.cols ∧ process_data dfRangeC9 = .error .missingDestination :=
  C9_range_drop_kills_destination dfRangeC9 (by decide) rfl
    ⟨["http://a.com/p"], rfl⟩ (by decide)

/- Characterization of Counter.most_common(1): the first value in list
order whose occurrence count is maximal. -/

/-- Largest occurrence count over the values of a list. -/
def maxCount [DecidableEq α] (xs : List α) : Nat :=
  (xs.map (fun a => countOcc xs a)).foldr max 0

theorem le_foldr_max (l : List Nat) (b : Nat) (hb : b ∈ l) : b ≤ l.foldr max 0 := by
  induction l with
  | nil => exact absurd hb (List.not_mem_nil b)
  | cons x t ih =>
    rw [List.foldr_cons]
    rcases List.mem_cons.mp hb with h | h
    · rw [h]
      exact Nat.le_max_left x (t.foldr max 0)
    · exact Nat.le_trans (ih h) (Nat.le_max_right x _)

theorem foldr_max_le (l : List Nat) (n : Nat) (h : ∀ b ∈ l, b ≤ n) :
    l.foldr max 0 ≤ n := by
  induction l with
  | nil => exact Nat.zero_le n
  | cons x t ih =>
    rw [List.foldr_cons]
    exact Nat.max_le.mpr ⟨h x (List.mem_cons_self x t), ih fun b hb => h b (List.mem_cons_of_mem x hb)⟩

theorem countOcc_le_maxCount [DecidableEq α] (xs : List α) (a : α) (ha : a ∈ xs) :
    countOcc xs a ≤ maxCount xs :=
  le_foldr_max _ _ (List.mem_map.mpr ⟨a, ha, rfl⟩)

theorem foldl_pick_eq_find [DecidableEq α] (xs : List α) (t : List α) : ∀ c : α,
    t.foldl
      (fun b a =>
        match b with
        | none => some a
        | some c' => if countOcc xs c' < countOcc xs a then some a else some c')
      (some c)
    = (c :: t).find? (fun a =>
        decide (countOcc xs a = ((c :: t).map (fun b => countOcc xs b)).foldr max 0)) := by
  induction t with
  | nil =>
    intro c
    have hm : ([c].map (fun b => countOcc xs b)).foldr max 0 = countOcc xs c := by
      simp [Nat.max_zero]
    rw [hm, List.find?_cons]
    simp
  | cons a t ih =>
    intro c
    rw [List.foldl_cons]
    show t.foldl _ (if countOcc xs c < countOcc xs a then some a else some c) = _
    have hfa : countOcc xs a ≤ ((a :: t).map (fun b => countOcc xs b)).foldr max 0 :=
      le_foldr_max _ _ (List.mem_map.mpr ⟨a, List.mem_cons_self a t, rfl⟩)
    by_cases hlt : countOcc xs c < countOcc xs a
    · rw [if_pos hlt, ih a]
      have hmax : ((c :: a :: t).map (fun b => countOcc xs b)).foldr max 0
          = ((a :: t).map (fun b => countOcc xs b)).foldr max 0 := by
        rw [List.map_cons, List.foldr_cons]
        exact Nat.max_eq_right (Nat.le_trans (Nat.le_of_lt hlt) hfa)
      have hpc : ¬((fun x => decide (countOcc xs x
          = ((a :: t).map (fun b => countOcc xs b)).foldr max 0)) c = true) := by
        simp only [decide_eq_true_eq]
        omega
      rw [hmax, @List.find?_cons_of_neg _
        (fun x => decide (countOcc xs x
          = ((a :: t).map (fun b => countOcc xs b)).foldr max 0)) c (a :: t) hpc]
    · rw [if_neg hlt, ih c]
      have hle : countOcc xs a ≤ countOcc xs c := Nat.le_of_not_lt hlt
      have hmax : ((c :: a :: t).map (fun b => countOcc xs b)).foldr max 0
          = ((c :: t).map (fun b => countOcc xs b)).foldr max 0 := by
        simp only [List.map_cons, List.foldr_cons]
        rw [← Nat.max_assoc, Nat.max_eq_left hle]
      rw [hmax]
      by_cases hpc : countOcc xs c = ((c :: t).map (fun b => countOcc xs b)).foldr max 0
      · rw [@List.find?_cons_of_pos _
            (fun x => decide (countOcc xs x
              = ((c :: t).map (fun b => countOcc xs b)).foldr max 0)) c t
            (by simp only [decide_eq_true_eq]; exact hpc),
          @List.find?_cons_of_pos _
            (fun x => decide (countOcc xs x
              = ((c :: t).map (fun b => countOcc xs b)).foldr max 0)) c (a :: t)
            (by simp only [decide_eq_true_eq]; exact hpc)]
      · have hle2 : countOcc xs c ≤ ((c :: t).map (fun b => countOcc xs b)).foldr max 0 :=
          le_foldr_max _ _ (List.mem_map.mpr ⟨c, List.mem_cons_self c t, rfl⟩)
        have hnc : ¬((fun x => decide (countOcc xs x
            = ((c :: t).map (fun b => countOcc xs b)).foldr max 0)) c = true) := by
          simp only [decide_eq_true_eq]
          exact hpc
        have hna : ¬((fun x => decide (countOcc xs x
            = ((c :: t).map (fun b => countOcc xs b)).foldr max 0)) a = true) := by
          simp only [decide_eq_true_eq]
          omega
        rw [@List.find?_cons_of_neg _
            (fun x => decide (countOcc xs x
              = ((c :: t).map (fun b => countOcc xs b)).foldr max 0)) c t hnc,
          @List.find?_cons_of_neg _
            (fun x => decide (countOcc xs x
              = ((c :: t).map (fun b => countOcc xs b)).foldr max 0)) c (a :: t) hnc,
          @List.find?_cons_of_neg _
            (fun x => decide (countOcc xs x
              = ((c :: t).map (fun b => countOcc xs b)).foldr max 0)) a t hna]

theorem maxCount_firstSeen [DecidableEq α] (xs : List α) :
    ((firstSeen xs).map (fun b => countOcc xs b)).foldr max 0 = maxCount xs := by
  apply Nat.le_antisymm
  · apply foldr_max_le
    intro b hb
    obtain ⟨v, hv, rfl⟩ := List.mem_map.mp hb
    exact countOcc_le_maxCount xs v ((mem_firstSeen xs v).mp hv)
  · apply foldr_max_le
    intro b hb
    obtain ⟨v, hv, rfl⟩ := List.mem_map.mp hb
    exact le_foldr_max _ _
      (List.mem_map.mpr ⟨v, (mem_firstSeen xs v).mpr hv, rfl⟩)

/-- mostCommon picks the first value in list order whose occurrence
count is maximal: most_common sorts by count descending and its
underlying nlargest is stable on the first-seen insertion order. -/
theorem mostCommon_eq_find [DecidableEq α] (xs : List α) :
    mostCommon xs = xs.find? (fun a => decide (countOcc xs a = maxCount xs)) := by
  unfold mostCommon
  cases hf : firstSeen xs with
  | nil =>
    have hxs : xs = [] := by
      cases hx : xs with
      | nil => rfl
      | cons a as =>
        exfalso
        have : a ∈ firstSeen xs := (mem_firstSeen xs a).mpr (hx ▸ List.mem_cons_self a as)
        rw [hf] at this
        exact absurd this (List.not_mem_nil a)
    rw [hxs]
    rfl
  | cons c t =>
    rw [List.foldl_cons]
    show t.foldl _ (some c) = _
    rw [foldl_pick_eq_find xs t c, ← hf, maxCount_firstSeen]
    exact find?_firstSeen _ xs

/-- C4 (amended): for every input accepted by main-domain detection,
the detected value is the first extracted domain in row order whose
occurrence count among the extracted domains is maximal: the most
frequent domain, ties broken by first appearance in row order.  The
code counts extracted domains, not Source values. -/
theorem C4_main_domain_most_common_domain (df : DataFrame) (md : String)
    (srcs : List String)
    (hs : sourceStrings df.rows = some srcs)
    (hmd : mainDomainStep df = .ok md) :
    (srcs.map extract_main_domain).find?
      (fun a => decide (countOcc (srcs.map extract_main_domain) a
        = maxCount (srcs.map extract_main_domain))) = some md := by
  unfold mainDomainStep at hmd
  by_cases hsrc : memB "Source" df.cols = true
  · rw [if_pos hsrc, hs] at hmd
    have hmd2 : (match mostCommon (srcs.map extract_main_domain) with
        | none => Except.error PError.emptyDomains
        | some d => (Except.ok d : Except PError String)) = Except.ok md := hmd
    cases hmc : mostCommon (srcs.map extract_main_domain) with
    | none =>
      rw [hmc] at hmd2
      cases hmd2
    | some d =>
      rw [hmc] at hmd2
      have hd : d = md := Except.ok.inj hmd2
      rw [← mostCommon_eq_find, hmc, hd]
  · rw [if_neg hsrc] at hmd
    cases hmd

/-- Input for C4: the single most frequent Source URL lives on b.com
while a.com pages dominate in total. -/
def dfFreqC4 : DataFrame :=
  ⟨["Source", "Destination"],
   [[("Source", .str "http://b.com/x"), ("Destination", .str "http://b.com/y")],
    [("Source", .str "http://b.com/x"), ("Destination", .str "http://b.com/y")],
    [("Source", .str "http://a.com/1"), ("Destination", .str "http://a.com/y")],
    [("Source", .str "http://a.com/2"), ("Destination", .str "http://a.com/y")],
    [("Source", .str "http://a.com/3"), ("Destination", .str "http://a.com/y")]]⟩

/-- Witness for the amended C4 at dfFreqC4: detection returns a.com,
the first domain of maximal count. -/
theorem C4_main_domain_most_common_domain_witness :
    ((["http://b.com/x", "http://b.com/x", "http://a.com/1",
       "http://a.com/2", "http://a.com/3"]).map extract_main_domain).find?
      (fun a => decide (countOcc ((["http://b.com/x", "http://b.com/x", "http://a.com/1",
        "http://a.com/2", "http://a.com/3"]).map extract_main_domain) a
        = maxCount ((["http://b.com/x", "http://b.com/x", "http://a.com/1",
          "http://a.com/2", "http://a.com/3"]).map extract_main_domain))) = some "a.com" :=
  C4_main_domain_most_common_domain dfFreqC4 "a.com"
    ["http://b.com/x", "http://b.com/x", "http://a.com/1",
     "http://a.com/2", "http://a.com/3"] rfl rfl

/-- C4 counterexample: in dfFreqC4 the most frequently occurring
Source URL is http://b.com/x (count 2, every other source value counts
1), whose network location is b.com; detection nevertheless returns
a.com, because the code counts extracted domains, of which a.com has
three occurrences. -/
theorem C4_counterexample :
    sourceStrings dfFreqC4.rows = some ["http://b.com/x", "http://b.com/x",
      "http://a.com/1", "http://a.com/2", "http://a.com/3"]
    ∧ mostCommon ["http://b.com/x", "http://b.com/x",
        "http://a.com/1", "http://a.com/2", "http://a.com/3"] = some "http://b.com/x"
    ∧ extract_main_domain "http://b.com/x" = "b.com"
    ∧ mainDomainStep dfFreqC4 = .ok "a.com"
    ∧ ("a.com" : String) ≠ "b.com" := ⟨rfl, rfl, rfl, rfl, by decide⟩

/- Positional characterization of the step 4 label slice. -/

theorem bool_eq_of_iff (a b : Bool) (h : a = true ↔ b = true) : a = b := by
  cases a <;> cases b <;> simp_all

theorem colIdx_getElem? (l : List String) (c : String) (hc : c ∈ l) :
    l[colIdx c l]? = some c := by
  induction l with
  | nil => exact absurd hc (List.not_mem_nil c)
  | cons b t ih =>
    rw [colIdx]
    by_cases hb : b = c
    · rw [if_pos hb, List.getElem?_cons_zero, hb]
    · rw [if_neg hb, List.getElem?_cons_succ]
      rcases List.mem_cons.mp hc with h | h
      · exact absurd h.symm hb
      · exact ih h

theorem nodup_getElem?_eq_colIdx (l : List String) (hnd : l.Nodup) :
    ∀ (m : Nat) (c : String), l[m]? = some c → m = colIdx c l := by
  induction l with
  | nil => intro m c h; rw [List.getElem?_nil] at h; cases h
  | cons b t ih =>
    intro m c h
    cases m with
    | zero =>
      rw [List.getElem?_cons_zero] at h
      have hb : b = c := Option.some.inj h
      rw [colIdx, if_pos hb]
    | succ m =>
      rw [List.getElem?_cons_succ] at h
      have hct : c ∈ t := List.mem_iff_getElem?.mpr ⟨m, h⟩
      have hb : b ≠ c := fun hbc => (List.nodup_cons.mp hnd).1 (hbc ▸ hct)
      rw [colIdx, if_neg hb]
      rw [ih (List.nodup_cons.mp hnd).2 m c h]

theorem mem_slice_iff (l : List String) (hnd : l.Nodup) (c : String) (i n : Nat) :
    c ∈ (l.drop i).take n ↔ (c ∈ l ∧ i ≤ colIdx c l ∧ colIdx c l < i + n) := by
  constructor
  · intro h
    obtain ⟨k, hk⟩ := List.mem_iff_getElem?.mp h
    rw [List.getElem?_take] at hk
    by_cases hkn : k < n
    · rw [if_pos hkn, List.getElem?_drop] at hk
      have hc : c ∈ l := List.mem_iff_getElem?.mpr ⟨i + k, hk⟩
      have hidx := nodup_getElem?_eq_colIdx l hnd (i + k) c hk
      exact ⟨hc, by omega, by omega⟩
    · rw [if_neg hkn] at hk
      cases hk
  · rintro ⟨hc, h1, h2⟩
    apply List.mem_iff_getElem?.mpr
    refine ⟨colIdx c l - i, ?_⟩
    rw [List.getElem?_take, if_pos (by omega), List.getElem?_drop]
    have heq : i + (colIdx c l - i) = colIdx c l := by omega
    rw [heq]
    exact colIdx_getElem? l c hc

theorem mem_rangeDropCols (cols : List String) (hnd : cols.Nodup)
    (hf : "Follow" ∈ cols) (hl : "Link Path" ∈ cols) (c : String) :
    c ∈ rangeDropCols cols ↔
      (c ∈ cols ∧ colIdx "Follow" cols ≤ colIdx c cols
        ∧ colIdx c cols ≤ colIdx "Link Path" cols) := by
  unfold rangeDropCols
  rw [if_pos (by rw [Bool.and_eq_true, memB_iff, memB_iff]; exact ⟨hf, hl⟩)]
  rw [mem_slice_iff cols hnd c _ _]
  constructor
  · rintro ⟨h1, h2, h3⟩
    exact ⟨h1, h2, by omega⟩
  · rintro ⟨h1, h2, h3⟩
    exact ⟨h1, h2, by omega⟩

/-- C5 (amended): when both Follow and Link Path are present, step 4
removes exactly the columns positioned from the location of Follow
through the location of Link Path inclusive in the current
left-to-right column ordering; when Follow is positioned after Link
Path this range is empty, so no column at all is removed (the pandas
label slice runs only forward); when either endpoint is missing, no
column is removed. -/
theorem C5_range_drop (cols : List String) (hnd : cols.Nodup) :
    (("Follow" ∈ cols ∧ "Link Path" ∈ cols) →
      dropRangeStep cols = cols.filter (fun c =>
        !(decide (colIdx "Follow" cols ≤ colIdx c cols)
          && decide (colIdx c cols ≤ colIdx "Link Path" cols))))
    ∧ (¬("Follow" ∈ cols ∧ "Link Path" ∈ cols) → dropRangeStep cols = cols) := by
  constructor
  · rintro ⟨hf, hl⟩
    unfold dropRangeStep
    apply List.filter_congr
    intro c hc
    congr 1
    apply bool_eq_of_iff
    rw [memB_iff, Bool.and_eq_true, decide_eq_true_eq, decide_eq_true_eq]
    rw [mem_rangeDropCols cols hnd hf hl c]
    constructor
    · rintro ⟨_, h2, h3⟩
      exact ⟨h2, h3⟩
    · rintro ⟨h2, h3⟩
      exact ⟨hc, h2, h3⟩
  · intro hmiss
    unfold dropRangeStep rangeDropCols
    rw [if_neg (by rw [Bool.and_eq_true, memB_iff, memB_iff]; exact hmiss)]
    apply List.filter_eq_self.mpr
    intro a _
    rfl

/-- Witness for the amended C5 at the column list
[Source, Follow, X, Link Path]. -/
theorem C5_range_drop_witness :
    (("Follow" ∈ ["Source", "Follow", "X", "Link Path"]
      ∧ "Link Path" ∈ ["Source", "Follow", "X", "Link Path"]) →
      dropRangeStep ["Source", "Follow", "X", "Link Path"]
        = (["Source", "Follow", "X", "Link Path"]).filter (fun c =>
          !(decide (colIdx "Follow" ["Source", "Follow", "X", "Link Path"]
              ≤ colIdx c ["Source", "Follow", "X", "Link Path"])
            && decide (colIdx c ["Source", "Follow", "X", "Link Path"]
              ≤ colIdx "Link Path" ["Source", "Follow", "X", "Link Path"]))))
    ∧ (¬("Follow" ∈ ["Source", "Follow", "X", "Link Path"]
        ∧ "Link Path" ∈ ["Source", "Follow", "X", "Link Path"]) →
      dropRangeStep ["Source", "Follow", "X", "Link Path"]
        = ["Source", "Follow", "X", "Link Path"]) :=
  C5_range_drop ["Source", "Follow", "X", "Link Path"] (by decide)

/-- C5 counterexample: with column order [Link Path, Mid, Follow] both
endpoints exist and Mid lies between them positionally, yet step 4
removes no column: the label slice from Follow to Link Path is empty
because Follow sits after Link Path. -/
theorem C5_counterexample :
    dropRangeStep ["Link Path", "Mid", "Follow"] = ["Link Path", "Mid", "Follow"]
    ∧ "Follow" ∈ ["Link Path", "Mid", "Follow"]
    ∧ "Link Path" ∈ ["Link Path", "Mid", "Follow"]
    ∧ colIdx "Link Path" ["Link Path", "Mid", "Follow"]
        < colIdx "Mid" ["Link Path", "Mid", "Follow"]
    ∧ colIdx "Mid" ["Link Path", "Mid", "Follow"]
        < colIdx "Follow" ["Link Path", "Mid", "Follow"]
    ∧ "Mid" ∈ dropRangeStep ["Link Path", "Mid", "Follow"] :=
  ⟨rfl, by decide, by decide, by decide, by decide, by decide⟩

/- Failure analysis of the whole pipeline. -/

